import Mathlib

/-!
A verification model of the `slop-rs` SLOP parser/serializer.

This file gives a shallow embedding, over `Chars`, of the core of the
`slop-rs` crate (`src/slop.rs`, `src/value.rs`, `src/error.rs`):

* `SlopValue` — the tagged value union (`String` / `List`) with its accessors
  `SlopValue.string` / `SlopValue.list` and its compact `Display` rendering
  (`SlopValue.render`).
* `Slop` — the document: a key→value mapping.  The Rust code stores the
  entries in a `HashMap`; here the map is modelled as an association list in
  insertion order with `HashMap`'s insert semantics (replace-in-place on an
  existing key, append otherwise), which is one legitimate instance of the
  "iteration order unspecified" contract.
* `clean_up_line`, `parse_string_kv`, `parse_list_kv`, `appendLoop` /
  `Slop.append_slop_string`, `slopFromStr` — the parser, line for line after
  the Rust source.  Rust panics (the out-of-range index documented on
  `parse_list_kv`) are modelled by an outer `Option`: `none` is a panic.
* `Slop.render` — the compact serializer (`Display for Slop`).

Rust `&str` values are modelled as `Chars`; `str` converts a Lean string
literal into that representation.
-/

/-- The model of Rust string data: a list of characters. -/
abbrev Chars : Type := List Char

/-- The model of a sequence of Rust strings (`Vec<String>` / line vectors). -/
abbrev Lines : Type := List Chars

/-- `Chars` view of a string literal (Rust `&str` / `String` model). -/
def str (s : String) : Chars := s.data

/-- The character class accepted by Rust's `char::is_whitespace`
(the Unicode `White_Space` property), used by `str::trim_start`. -/
def rustIsWhitespace (c : Char) : Bool :=
  let n := c.toNat
  n == 0x09 || n == 0x0A || n == 0x0B || n == 0x0C || n == 0x0D ||
  n == 0x20 || n == 0x85 || n == 0xA0 || n == 0x1680 ||
  (Nat.ble 0x2000 n && Nat.ble n 0x200A) ||
  n == 0x2028 || n == 0x2029 || n == 0x202F || n == 0x205F || n == 0x3000

/-- Rust `str::trim_start`: drop the longest whitespace run from the front. -/
def trimStart : Chars → Chars
  | [] => []
  | c :: rest => if rustIsWhitespace c then trimStart rest else c :: rest

/-- Rust `str::strip_suffix(c)`: remove a single trailing `c`, or report
`none` when the string does not end with `c`. -/
def stripSuffixChar (c : Char) (l : Chars) : Option (Chars) :=
  match l.reverse with
  | [] => none
  | x :: rest => if x = c then some rest.reverse else none

/-- `clean_up_line` (src/slop.rs:395): strip one trailing `'\r'` if present,
then strip leading whitespace. -/
def clean_up_line (line : Chars) : Chars :=
  trimStart ((stripSuffixChar '\r' line).getD line)

/-- Rust `str::split('\n')`: note that the result is never empty and that a
trailing `'\n'` produces a final empty piece. -/
def splitOnNl : Chars → List (Chars)
  | [] => [[]]
  | c :: cs =>
    if c = '\n' then [] :: splitOnNl cs
    else
      match splitOnNl cs with
      | [] => [[c]]
      | l :: ls => (c :: l) :: ls

/-- Rust `str::split_once(sep)`: split at the first occurrence of `sep`. -/
def splitOnce (sep : Char) : Chars → Option (Chars × Chars)
  | [] => none
  | c :: cs =>
    if c = sep then some ([], cs)
    else
      match splitOnce sep cs with
      | none => none
      | some (a, b) => some (c :: a, b)

/-- Rust `[String]::join("\n")`. -/
def joinNl : List (Chars) → Chars
  | [] => []
  | [x] => x
  | x :: xs => x ++ '\n' :: joinNl xs

/-- `SlopValue` (src/value.rs): the two value shapes of a SLOP document. -/
inductive SlopValue : Type where
  | String : Chars → SlopValue
  | List : Lines → SlopValue
deriving DecidableEq

/-- `SlopValue::string` (src/value.rs:51): the contained string, or `none`
for a list. -/
def SlopValue.string : SlopValue → Option (Chars)
  | .String s => some s
  | .List _ => none

/-- `SlopValue::list` (src/value.rs:61): the contained list, or `none`
for a string. -/
def SlopValue.list : SlopValue → Option Lines
  | .String _ => none
  | .List l => some l

/-- `Display for SlopValue` (src/value.rs:125), the compact rendering:
`=s` for strings, `{\n<items joined by \n>\n}` for lists. -/
def SlopValue.render : SlopValue → Chars
  | .String s => '=' :: s
  | .List l => '{' :: '\n' :: (joinNl l ++ '\n' :: ['}'])

instance instDecEqExcept {e a : Type} [DecidableEq e] [DecidableEq a] :
    DecidableEq (Except e a) := fun x y =>
  match x, y with
  | .ok u, .ok v =>
    if h : u = v then isTrue (by rw [h])
    else isFalse (fun hh => by cases hh; exact h rfl)
  | .ok _, .error _ => isFalse (fun hh => by cases hh)
  | .error _, .ok _ => isFalse (fun hh => by cases hh)
  | .error u, .error v =>
    if h : u = v then isTrue (by rw [h])
    else isFalse (fun hh => by cases hh; exact h rfl)

/-- `SlopError` (src/error.rs).  `Io` wraps an I/O failure whose payload is
out of scope here (the core parser never produces it). -/
inductive SlopError : Type where
  | InvalidLine : Nat → Chars → SlopError
  | UnclosedList : Nat → Chars → SlopError
  | InvalidKey : Chars → SlopError
  | Io : SlopError
deriving DecidableEq

/-- `Slop` (src/slop.rs:41): the document.  The `HashMap` is modelled as an
association list in iteration order. -/
structure Slop : Type where
  items : List (Chars × SlopValue)
deriving DecidableEq

/-- `HashMap::get` on the association-list model. -/
def lookupItems (items : List (Chars × SlopValue)) (key : Chars) :
    Option SlopValue :=
  match items with
  | [] => none
  | e :: rest => if e.1 = key then some e.2 else lookupItems rest key

/-- `HashMap::insert` on the association-list model: replace the value in
place when the key is present (the stored key is not updated), append a new
entry otherwise. -/
def insertItems (items : List (Chars × SlopValue)) (key : Chars)
    (v : SlopValue) : List (Chars × SlopValue) :=
  match items with
  | [] => [(key, v)]
  | e :: rest => if e.1 = key then (e.1, v) :: rest else e :: insertItems rest key v

/-- `Slop::new` (src/slop.rs:47). -/
def Slop.new : Slop := ⟨[]⟩

/-- `Slop::get` (src/slop.rs:133). -/
def Slop.get (d : Slop) (key : Chars) : Option SlopValue :=
  lookupItems d.items key

/-- `Slop::get_string` (src/slop.rs:158): `self.get(key)?.string()`. -/
def Slop.get_string (d : Slop) (key : Chars) : Option (Chars) :=
  (d.get key).bind SlopValue.string

/-- `Slop::get_list` (src/slop.rs:184): `self.get(key)?.list()`. -/
def Slop.get_list (d : Slop) (key : Chars) : Option Lines :=
  (d.get key).bind SlopValue.list

/-- `Slop::contains_key` (src/slop.rs:125). -/
def Slop.contains_key (d : Slop) (key : Chars) : Bool :=
  (lookupItems d.items key).isSome

/-- `Slop::is_empty` (src/slop.rs:120). -/
def Slop.is_empty (d : Slop) : Bool :=
  d.items.isEmpty

/-- `Slop::insert` (src/slop.rs:212): reject keys containing `'='` or ending
in `'{'`, otherwise insert and return the previous value.  Rust mutates
`self` and returns a `SlopResult<Option<SlopValue>>`; the model returns the
(possibly unchanged) document next to that result. -/
def Slop.insert (d : Slop) (key : Chars) (v : SlopValue) :
    Slop × Except SlopError (Option SlopValue) :=
  if ('=' ∈ key) ∨ key.getLast? = some '{' then
    (d, .error (.InvalidKey key))
  else
    (⟨insertItems d.items key v⟩, .ok (lookupItems d.items key))

/-- `Slop::insert_unchecked` (src/slop.rs:238): insert without validation. -/
def Slop.insert_unchecked (d : Slop) (key : Chars) (v : SlopValue) :
    Slop × Option SlopValue :=
  (⟨insertItems d.items key v⟩, lookupItems d.items key)

/-- `parse_string_kv` (src/slop.rs:400): split the line at the first `'='`. -/
def parse_string_kv (line : Chars) : Option (Chars × SlopValue) :=
  match splitOnce '=' line with
  | none => none
  | some (key, value) => some (key, SlopValue.String value)

/-- The body scan of `parse_list_kv` (src/slop.rs:422): walk the lines after
the opener; a line whose cleaned form is exactly `"}"` closes the list, every
earlier line is pushed in cleaned form.  Returns the items together with the
number of lines consumed (`i - start_index` in the Rust code); `none` when
the input ends before a closer. -/
def scanListBody : List (Chars) → Option (List (Chars) × Nat)
  | [] => none
  | l :: rest =>
    let line := clean_up_line l
    if line = ['}'] then some ([], 1)
    else
      match scanListBody rest with
      | none => none
      | some (vals, n) => some (line :: vals, n + 1)

/-- `parse_list_kv` (src/slop.rs:411).  The outer `Option` models the
documented panic: `none` when `start_index` is out of range of `lines`.
Otherwise: `ok none` when the cleaned opener line does not end in `'{'`,
`error (UnclosedList start_index <raw opener line>)` when no closing `"}"`
line exists, and `ok (some (key, items, skip))` on success. -/
def parse_list_kv (lines : List (Chars)) (start_index : Nat) :
    Option (Except SlopError (Option (Chars × SlopValue × Nat))) :=
  match lines[start_index]? with
  | none => none
  | some first =>
    match stripSuffixChar '{' (clean_up_line first) with
    | none => some (.ok none)
    | some key =>
      match scanListBody (lines.drop (start_index + 1)) with
      | none => some (.error (.UnclosedList start_index first))
      | some (vals, n) => some (.ok (some (key, SlopValue.List vals, n)))

/-- The loop of `Slop::append_slop_string` (src/slop.rs:283).  `lines` is the
full line vector and `i` the current index; the final argument is the suffix
`lines.drop i` still to be processed (the loop over `i in 0..lines.len()` is
realised structurally on that suffix).  `skip` is the `skip_lines` counter.
The outer `Option` models panics (`none` is only possible through
`parse_list_kv`); otherwise the result carries the mutated document next to
the `Result<(), SlopError>` the Rust function returns. -/
def appendLoop (slop : Slop) (lines : List (Chars)) (i : Nat) (skip : Nat) :
    List (Chars) → Option (Slop × Except SlopError Unit)
  | [] => some (slop, .ok ())
  | l :: rest =>
    if 0 < skip then appendLoop slop lines (i + 1) (skip - 1) rest
    else
      let line := clean_up_line l
      if line = [] ∨ line.head? = some '#' then
        appendLoop slop lines (i + 1) 0 rest
      else
        match parse_string_kv line with
        | some (key, value) =>
          match slop.insert key value with
          | (s', .ok _) => appendLoop s' lines (i + 1) 0 rest
          | (s', .error e) => some (s', .error e)
        | none =>
          match parse_list_kv lines i with
          | none => none
          | some (.error e) => some (slop, .error e)
          | some (.ok none) => some (slop, .error (.InvalidLine i line))
          | some (.ok (some (key, value, skipNew))) =>
            match slop.insert key value with
            | (s', .ok _) => appendLoop s' lines (i + 1) skipNew rest
            | (s', .error e) => some (s', .error e)

/-- `Slop::append_slop_string` (src/slop.rs:278): split the input on `'\n'`
and run the parsing loop over the resulting lines. -/
def Slop.append_slop_string (d : Slop) (input : Chars) :
    Option (Slop × Except SlopError Unit) :=
  let lines := splitOnNl input
  appendLoop d lines 0 0 lines

/-- `FromStr for Slop` (src/slop.rs:359): parse into a fresh document.  On
error the partially filled document is discarded, as in the Rust code. -/
def slopFromStr (input : Chars) : Option (Except SlopError Slop) :=
  match Slop.new.append_slop_string input with
  | none => none
  | some (d, .ok _) => some (.ok d)
  | some (_, .error e) => some (.error e)

/-- `Display for Slop` (src/slop.rs:342): concatenate, for every entry in
iteration order, `key ++ <compact value rendering> ++ "\n"`. -/
def Slop.render (d : Slop) : Chars :=
  d.items.foldl (fun acc e => acc ++ e.1 ++ e.2.render ++ ['\n']) []

/-! ## Basic lemmas about the association-list map model -/

theorem lookup_insertItems (items : List (Chars × SlopValue)) (key : Chars)
    (v : SlopValue) (k : Chars) :
    lookupItems (insertItems items key v) k
      = if key = k then some v else lookupItems items k := by
  induction items with
  | nil =>
    simp [insertItems, lookupItems]
  | cons e rest ih =>
    simp only [insertItems]
    by_cases he : e.1 = key
    · subst he
      simp only [if_pos rfl]
      by_cases hk : e.1 = k <;> simp [hk, lookupItems]
    · rw [if_neg he]
      simp only [lookupItems, ih]
      by_cases hk : e.1 = k
      · have hkey : ¬(key = k) := fun hh => he (hk.trans hh.symm)
        simp [hk, hkey]
      · simp [hk]

theorem lookup_insertItems_isSome (items : List (Chars × SlopValue)) (key : Chars)
    (v : SlopValue) (k : Chars)
    (h : (lookupItems items k).isSome = true) :
    (lookupItems (insertItems items key v) k).isSome = true := by
  rw [lookup_insertItems]
  by_cases hk : key = k <;> simp [hk, h]

/-! ## Lemmas about `List.drop` bookkeeping for the parsing loop -/

theorem drop_cons_get {α : Type} {l : List α} {i : Nat} {x : α} {r : List α}
    (h : l.drop i = x :: r) : l[i]? = some x := by
  induction i generalizing l with
  | zero => simp at h; simp [h]
  | succ n ih =>
    cases l with
    | nil => simp at h
    | cons c t =>
      rw [List.drop_succ_cons] at h
      simpa using ih h

theorem drop_succ_of_drop {α : Type} {l : List α} {i : Nat} {x : α} {r : List α}
    (h : l.drop i = x :: r) : l.drop (i + 1) = r := by
  induction i generalizing l with
  | zero => simp at h; rw [h]; simp
  | succ n ih =>
    cases l with
    | nil => simp at h
    | cons c t =>
      rw [List.drop_succ_cons] at h
      rw [List.drop_succ_cons]
      exact ih h

theorem drop_append_shift {α : Type} {a : List α} : ∀ {l : List α} {i : Nat} {b : List α},
    l.drop i = a ++ b → l.drop (i + a.length) = b := by
  induction a with
  | nil => intro l i b h; simpa using h
  | cons x t ih =>
    intro l i b h
    rw [List.cons_append] at h
    have h1 : l.drop (i + 1) = t ++ b := drop_succ_of_drop h
    have := ih h1
    rw [List.length_cons]
    rw [show i + (t.length + 1) = i + 1 + t.length by omega]
    exact this

/-! ## Lemmas about `Slop.insert` outcomes -/

theorem insert_ok_items {d : Slop} {key : Chars} {v : SlopValue} {d' : Slop}
    {prev : Option SlopValue} (h : d.insert key v = (d', .ok prev)) :
    d'.items = insertItems d.items key v := by
  unfold Slop.insert at h
  split at h
  · exact absurd (congrArg Prod.snd h) (by simp)
  · have := congrArg Slop.items (congrArg Prod.fst h)
    simpa using this.symm

theorem insert_error_state {d : Slop} {key : Chars} {v : SlopValue} {d' : Slop}
    {e : SlopError} (h : d.insert key v = (d', .error e)) : d' = d := by
  unfold Slop.insert at h
  split at h
  · exact (congrArg Prod.fst h).symm
  · exact absurd (congrArg Prod.snd h) (by simp)

/-! ## The parsing loop never panics -/

theorem parse_list_kv_isSome {lines : Lines} {i : Nat} {l : Chars}
    (h : lines[i]? = some l) : (parse_list_kv lines i).isSome = true := by
  unfold parse_list_kv
  rw [h]
  split
  · rename_i heq
    exact absurd heq (by simp)
  · split
    · rfl
    · split
      · rfl
      · rfl

theorem appendLoop_isSome : ∀ (rest : Lines) (slop : Slop) (lines : Lines) (i skip : Nat),
    lines.drop i = rest → (appendLoop slop lines i skip rest).isSome = true := by
  intro rest
  induction rest with
  | nil => intro slop lines i skip _; rfl
  | cons l r ih =>
    intro slop lines i skip h
    have hd : lines.drop (i + 1) = r := drop_succ_of_drop h
    have hg : lines[i]? = some l := drop_cons_get h
    simp only [appendLoop]
    split
    · exact ih slop lines (i + 1) (skip - 1) hd
    · split
      · exact ih slop lines (i + 1) 0 hd
      · split
        · split
          · exact ih _ lines (i + 1) 0 hd
          · rfl
        · have hp := parse_list_kv_isSome hg
          split
          · rename_i hnone
            rw [hnone] at hp
            simp at hp
          · rfl
          · rfl
          · split
            · exact ih _ lines (i + 1) _ hd
            · rfl

theorem appendLoop_keeps_keys : ∀ (rest : Lines) (slop : Slop) (lines : Lines)
    (i skip : Nat) (d : Slop) (res : Except SlopError Unit),
    appendLoop slop lines i skip rest = some (d, res) →
    ∀ k, (lookupItems slop.items k).isSome = true →
      (lookupItems d.items k).isSome = true := by
  intro rest
  induction rest with
  | nil =>
    intro slop lines i skip d res h k hk
    simp only [appendLoop, Option.some.injEq] at h
    rw [← congrArg Slop.items (congrArg Prod.fst h)]
    exact hk
  | cons l r ih =>
    intro slop lines i skip d res h k hk
    simp only [appendLoop] at h
    split at h
    · exact ih _ _ _ _ _ _ h k hk
    · split at h
      · exact ih _ _ _ _ _ _ h k hk
      · split at h
        · split at h
          · rename_i s' prev hins
            refine ih _ _ _ _ _ _ h k ?_
            rw [insert_ok_items hins]
            exact lookup_insertItems_isSome _ _ _ _ hk
          · rename_i s' e hins
            cases h
            rw [insert_error_state hins]
            exact hk
        · split at h
          · cases h
          · cases h
            exact hk
          · cases h
            exact hk
          · split at h
            · rename_i s' prev hins
              refine ih _ _ _ _ _ _ h k ?_
              rw [insert_ok_items hins]
              exact lookup_insertItems_isSome _ _ _ _ hk
            · rename_i s' e hins
              cases h
              rw [insert_error_state hins]
              exact hk

theorem appendLoop_all_skipped : ∀ (rest : Lines) (slop : Slop) (lines : Lines) (i : Nat),
    (∀ l ∈ rest, clean_up_line l = [] ∨ (clean_up_line l).head? = some '#') →
    appendLoop slop lines i 0 rest = some (slop, .ok ()) := by
  intro rest
  induction rest with
  | nil => intro slop lines i _; rfl
  | cons l r ih =>
    intro slop lines i hall
    have h1 := hall l (by simp)
    have h2 : ∀ x ∈ r, clean_up_line x = [] ∨ (clean_up_line x).head? = some '#' :=
      fun x hx => hall x (by simp [hx])
    simp only [appendLoop]
    rw [if_neg (by omega : ¬ 0 < 0), if_pos h1]
    exact ih slop lines (i + 1) h2

/-! ## Shape of a successful list-body scan -/

theorem trimStart_length_le : ∀ (l : Chars), (trimStart l).length ≤ l.length := by
  intro l
  induction l with
  | nil => simp [trimStart]
  | cons c t ih =>
    rw [trimStart]
    split
    · exact Nat.le_trans ih (by simp)
    · simp

theorem scanListBody_shape : ∀ (body : Lines) (vals : Lines) (n : Nat),
    scanListBody body = some (vals, n) →
    n = vals.length + 1
    ∧ vals = (body.take vals.length).map clean_up_line
    ∧ ∀ v ∈ vals, v ≠ ['}'] := by
  intro body
  induction body with
  | nil => intro vals n h; cases h
  | cons l r ih =>
    intro vals n h
    simp only [scanListBody] at h
    split at h
    · cases h
      simp
    · rename_i hne
      split at h
      · cases h
      · rename_i vals' n' hp
        cases h
        obtain ⟨ih1, ih2, ih3⟩ := ih vals' n' hp
        refine ⟨by simp [ih1], ?_, ?_⟩
        · rw [List.length_cons, List.take_succ_cons, List.map_cons, ← ih2]
        · intro v hv
          rcases List.mem_cons.mp hv with h | h
          · rw [h]; exact hne
          · exact ih3 v h

theorem scanListBody_none : ∀ (body : Lines),
    (∀ bl ∈ body, clean_up_line bl ≠ ['}']) → scanListBody body = none := by
  intro body
  induction body with
  | nil => intro _; rfl
  | cons l r ih =>
    intro h
    simp only [scanListBody]
    rw [if_neg (h l (by simp)), ih (fun x hx => h x (by simp [hx]))]

/-! ## Claim C1 -/

/-- C1 counterexample: list body lines are passed through `clean_up_line`,
so their leading indentation IS stripped.  The spec's own example input
parses to `List ["x","y"]`, which differs from the claimed
`List ["  x","  y"]`. -/
theorem list_items_trimmed_counterexample :
    slopFromStr (str ("list\x7b\n  x\n  y\n\x7d\n"))
      = some (.ok ⟨[(str ("list"), .List [str ("x"), str ("y")])]⟩)
    ∧ SlopValue.List [str ("x"), str ("y")]
        ≠ SlopValue.List [str ("  x"), str ("  y")] := by decide

/-- C1 amended: each body line between the opener and the closer becomes one
list item after full `clean_up_line` cleaning — trailing `\r` removal AND
leading-whitespace stripping; the example input parses to
`List ["x","y"]`. -/
theorem list_items_cleaned :
    slopFromStr (str ("list\x7b\n  x\n  y\n\x7d\n"))
      = some (.ok ⟨[(str ("list"), .List [str ("x"), str ("y")])]⟩)
    ∧ ∀ (lines : Lines) (j : Nat) (key : Chars) (vals : Lines) (n : Nat),
        parse_list_kv lines j = some (.ok (some (key, SlopValue.List vals, n))) →
        n = vals.length + 1
        ∧ vals = ((lines.drop (j + 1)).take vals.length).map clean_up_line := by
  constructor
  · decide
  · intro lines j key vals n h
    unfold parse_list_kv at h
    split at h
    · cases h
    · split at h
      · cases h
      · split at h
        · cases h
        · rename_i vals' n' hscan
          simp only [Option.some.injEq, Except.ok.injEq, Prod.mk.injEq,
            SlopValue.List.injEq] at h
          obtain ⟨hk, hv, hn⟩ := h
          subst hv
          subst hn
          obtain ⟨h1, h2, _⟩ := scanListBody_shape _ _ _ hscan
          exact ⟨h1, h2⟩

/-- C1 amended witness: a concrete one-item list block with indentation. -/
theorem list_items_cleaned_witness :
    (2 = [str ("a")].length + 1)
    ∧ [str ("a")]
      = (([str ("k\x7b"), str (" a"), str ("\x7d")].drop (0 + 1)).take
          [str ("a")].length).map clean_up_line :=
  list_items_cleaned.2 [str ("k\x7b"), str (" a"), str ("\x7d")] 0 (str ("k"))
    [str ("a")] 2 (by decide)

/-! ## Claim C3 -/

/-- C3 counterexample: the line `a{b=c` does split into key `a{b` and value
`c`, but that key is LEGAL (it neither contains `=` nor ends in `{`), so the
insert succeeds and parsing returns `Ok` — it does not fail with
`InvalidKey` as claimed. -/
theorem split_then_insert_counterexample :
    slopFromStr (str ("a\x7bb=c"))
      = some (.ok ⟨[(str ("a\x7bb"), .String (str ("c")))]⟩)
    ∧ (Except.ok (Slop.mk [(str ("a\x7bb"), .String (str ("c")))])
        : Except SlopError Slop)
        ≠ .error (.InvalidKey (str ("a\x7bb"))) := by decide

/-- C3 amended: the parser splits `a{b=c` on the first `=` into key `a{b`
and value `c` with no validation at split time, and the subsequent checked
insert ACCEPTS `a{b` (its `{` is not at the end), so the line parses
successfully; a line whose pre-`=` part does end in `{`, such as `a{=c`,
is the shape that fails at insert time with `InvalidKey`. -/
theorem split_at_insert_validation :
    parse_string_kv (str ("a\x7bb=c"))
      = some (str ("a\x7bb"), .String (str ("c")))
    ∧ slopFromStr (str ("a\x7bb=c"))
        = some (.ok ⟨[(str ("a\x7bb"), .String (str ("c")))]⟩)
    ∧ slopFromStr (str ("a\x7b=c"))
        = some (.error (.InvalidKey (str ("a\x7b")))) := by decide

/-! ## Claim C5 -/

/-- C5 counterexample: appending `"a=2"` to a document already holding the
entry `a = "1"` overwrites that entry, so not every pre-existing entry
survives an append. -/
theorem append_preserves_entries_counterexample :
    (Slop.mk [(str ("a"), .String (str ("1")))]).append_slop_string
        (str ("a=2"))
      = some (⟨[(str ("a"), .String (str ("2")))]⟩, .ok ())
    ∧ (Slop.mk [(str ("a"), .String (str ("2")))]).get (str ("a"))
        ≠ some (.String (str ("1"))) := by decide

/-- C5 amended: `append_slop_string` never removes keys — every key present
beforehand is still present afterwards (its value may have been overwritten
by an entry of the appended text) — and on failure nothing is rolled back:
e.g. the failing input `"a=1\n%bad"` leaves the previously parsed entry
`a = "1"` in the document beside the `InvalidLine` error. -/
theorem append_keeps_keys_no_rollback :
    (∀ (d0 : Slop) (input : Chars) (d : Slop) (res : Except SlopError Unit),
        d0.append_slop_string input = some (d, res) →
        ∀ k, d0.contains_key k = true → d.contains_key k = true)
    ∧ Slop.new.append_slop_string (str ("a=1\n%bad"))
        = some (⟨[(str ("a"), .String (str ("1")))]⟩,
            .error (.InvalidLine 1 (str ("%bad")))) := by
  constructor
  · intro d0 input d res h k hk
    exact appendLoop_keeps_keys _ _ _ _ _ _ _ h k hk
  · decide

/-- C5 amended witness: key `z` survives appending `"a=1"`. -/
theorem append_keeps_keys_no_rollback_witness :
    (Slop.mk [(str ("z"), .String (str ("9"))),
      (str ("a"), .String (str ("1")))]).contains_key (str ("z")) = true :=
  append_keeps_keys_no_rollback.1 ⟨[(str ("z"), .String (str ("9")))]⟩
    (str ("a=1"))
    ⟨[(str ("z"), .String (str ("9"))), (str ("a"), .String (str ("1")))]⟩
    (.ok ()) (by decide) (str ("z")) (by decide)

/-! ## Claim C6 -/

/-- C6: `insert` fails with `InvalidKey` carrying exactly the offending key
iff the key contains `=` or ends with `{`; it succeeds for every other key,
returning the previous value for that key; on the failure path the document
is left unchanged. -/
theorem insert_invalid_key_spec (d : Slop) (key : Chars) (v : SlopValue) :
    ((d.insert key v).2 = .error (.InvalidKey key) ↔
      ('=' ∈ key ∨ key.getLast? = some '{'))
    ∧ (('=' ∈ key ∨ key.getLast? = some '{') → (d.insert key v).1 = d)
    ∧ (¬('=' ∈ key ∨ key.getLast? = some '{') →
        (d.insert key v).2 = .ok (d.get key)
        ∧ (d.insert key v).1 = ⟨insertItems d.items key v⟩) := by
  by_cases h : ('=' ∈ key ∨ key.getLast? = some '{') <;>
    simp [Slop.insert, Slop.get, h]

/-- C6 witness at the spec's concrete example key `bad=key` (rejected) and
at `a{b` (a key with an interior `{`, accepted). -/
theorem insert_invalid_key_spec_witness :
    (Slop.new.insert (str ("bad=key")) (.String (str ("v")))).2
      = .error (.InvalidKey (str ("bad=key"))) :=
  (insert_invalid_key_spec Slop.new (str ("bad=key")) (.String (str ("v")))).1.mpr
    (by decide)

/-! ## Claim C7 -/

/-- C7: a list block whose body has no line cleaning to `"}"` before the end
of input fails with `UnclosedList` carrying the 0-based opening index and
the opening line's original (uncleaned) text; concretely, `"key{\nitem\n"`
fails with `UnclosedList` at line 0 carrying `"key{"`. -/
theorem unclosed_list_spec :
    (∀ (lines : Lines) (j : Nat) (opener key : Chars),
        lines[j]? = some opener →
        stripSuffixChar '{' (clean_up_line opener) = some key →
        (∀ bl ∈ lines.drop (j + 1), clean_up_line bl ≠ ['}']) →
        parse_list_kv lines j = some (.error (.UnclosedList j opener)))
    ∧ slopFromStr (str ("key\x7b\nitem\n"))
        = some (.error (.UnclosedList 0 (str ("key\x7b")))) := by
  constructor
  · intro lines j opener key hget hstrip hbody
    simp only [parse_list_kv, hget, hstrip, scanListBody_none _ hbody]
  · decide

/-- C7 witness: a two-line unterminated block. -/
theorem unclosed_list_spec_witness :
    parse_list_kv [str ("k\x7b"), str ("x")] 0
      = some (.error (.UnclosedList 0 (str ("k\x7b")))) :=
  unclosed_list_spec.1 [str ("k\x7b"), str ("x")] 0 (str ("k\x7b")) (str ("k"))
    (by decide) (by decide) (by decide)

/-! ## Claim C8 -/

/-- C8: `get_string` returns `none` when the key is absent or holds a list
and the contained string when it holds a string; dually, `get_list` returns
`none` when the key is absent or holds a string and the contained list when
it holds a list. -/
theorem typed_access_spec (d : Slop) (k : Chars) :
    (d.get k = none → d.get_string k = none ∧ d.get_list k = none)
    ∧ (∀ l, d.get k = some (.List l) →
        d.get_string k = none ∧ d.get_list k = some l)
    ∧ (∀ s, d.get k = some (.String s) →
        d.get_string k = some s ∧ d.get_list k = none) := by
  refine ⟨fun h => ?_, fun l h => ?_, fun s h => ?_⟩ <;>
    simp [Slop.get_string, Slop.get_list, h, SlopValue.string, SlopValue.list]

/-- C8 witness: typed access on a concrete one-list document. -/
theorem typed_access_spec_witness :
    (Slop.mk [(str ("k"), .List [str ("a")])]).get_string (str ("k")) = none
    ∧ (Slop.mk [(str ("k"), .List [str ("a")])]).get_list (str ("k"))
        = some [str ("a")] :=
  (typed_access_spec ⟨[(str ("k"), .List [str ("a")])]⟩ (str ("k"))).2.1
    [str ("a")] (by decide)

/-! ## Claim C9 -/

/-- C9: appending the empty string, or any input whose lines all clean up to
blank or `#`-comment lines, returns `Ok` and leaves the document completely
unchanged; parsing the empty string yields the empty document. -/
theorem blank_comment_frame :
    (∀ (d : Slop) (input : Chars),
        (∀ l ∈ splitOnNl input,
          clean_up_line l = [] ∨ (clean_up_line l).head? = some '#') →
        d.append_slop_string input = some (d, .ok ()))
    ∧ (∀ d : Slop, d.append_slop_string [] = some (d, .ok ()))
    ∧ slopFromStr [] = some (.ok Slop.new) := by
  refine ⟨fun d input h => appendLoop_all_skipped _ d _ 0 h, fun d => ?_, by decide⟩
  exact appendLoop_all_skipped _ d _ 0 (by decide)

/-- C9 witness: a comment line, a whitespace line and a CRLF blank line. -/
theorem blank_comment_frame_witness :
    (Slop.mk [(str ("a"), .String (str ("b")))]).append_slop_string
        (str ("# note\n   \n\r\n"))
      = some (⟨[(str ("a"), .String (str ("b")))]⟩, .ok ()) :=
  blank_comment_frame.1 ⟨[(str ("a"), .String (str ("b")))]⟩
    (str ("# note\n   \n\r\n")) (by decide)

/-! ## Claim C10 -/

/-- C10: `append_slop_string` never panics: the out-of-range index access
documented on `parse_list_kv` (modelled by the outer `none`) is unreachable
from `append_slop_string`, for every document and every input string. -/
theorem append_never_panics (d : Slop) (input : Chars) :
    (d.append_slop_string input).isSome = true :=
  appendLoop_isSome (splitOnNl input) d (splitOnNl input) 0 0 (by simp)

/-! ## Fixpoint lemmas for `clean_up_line` on well-shaped lines -/

theorem trimStart_cons_not_ws {c : Char} (h : rustIsWhitespace c = false)
    (t : Chars) : trimStart (c :: t) = c :: t := by
  simp [trimStart, h]

theorem not_ws_of_trimStart_fix {c : Char} {t : Chars}
    (h : trimStart (c :: t) = c :: t) : rustIsWhitespace c = false := by
  by_contra hc
  rw [Bool.not_eq_false] at hc
  rw [trimStart, if_pos hc] at h
  have hlen := trimStart_length_le t
  have := congrArg List.length h
  simp at this
  omega

theorem trimStart_idem (l : Chars) : trimStart (trimStart l) = trimStart l := by
  induction l with
  | nil => rfl
  | cons c t ih =>
    by_cases hc : rustIsWhitespace c
    · rw [trimStart, if_pos hc]; exact ih
    · rw [trimStart, if_neg hc, trimStart, if_neg hc]

theorem trimStart_fix_of_append {a b : Chars} (h : trimStart (a ++ b) = a ++ b) :
    trimStart a = a := by
  cases a with
  | nil => rfl
  | cons c t =>
    have hc := not_ws_of_trimStart_fix (by simpa using h)
    exact trimStart_cons_not_ws hc t

theorem trimStart_fix_append {k : Chars} {c : Char} {t : Chars}
    (hk : trimStart k = k) (hc : rustIsWhitespace c = false) :
    trimStart (k ++ c :: t) = k ++ c :: t := by
  cases k with
  | nil => simpa using trimStart_cons_not_ws hc t
  | cons a k' =>
    have ha := not_ws_of_trimStart_fix hk
    simpa using trimStart_cons_not_ws ha (k' ++ c :: t)

theorem mem_trimStart {c : Char} : ∀ {l : Chars}, c ∈ trimStart l → c ∈ l := by
  intro l
  induction l with
  | nil => intro h; exact h
  | cons a t ih =>
    intro h
    rw [trimStart] at h
    split at h
    · exact List.mem_cons_of_mem a (ih h)
    · exact h

theorem stripSuffixChar_eq_none {c : Char} {l : Chars} (h : l.getLast? ≠ some c) :
    stripSuffixChar c l = none := by
  unfold stripSuffixChar
  cases hr : l.reverse with
  | nil => rfl
  | cons x r =>
    have hx : ¬(x = c) := by
      intro hx
      apply h
      rw [← List.head?_reverse, hr, hx]
      rfl
    show (if x = c then some r.reverse else none) = none
    rw [if_neg hx]

theorem stripSuffixChar_eq_some {c : Char} {l t : Chars}
    (h : stripSuffixChar c l = some t) : l = t ++ [c] := by
  unfold stripSuffixChar at h
  cases hr : l.reverse with
  | nil => rw [hr] at h; cases h
  | cons x r =>
    rw [hr] at h
    replace h : (if x = c then some r.reverse else none) = some t := h
    split at h
    · rename_i hx
      cases h
      subst hx
      calc l = l.reverse.reverse := (List.reverse_reverse l).symm
        _ = (x :: r).reverse := by rw [hr]
        _ = r.reverse ++ [x] := by simp
    · cases h

theorem stripSuffixChar_append (c : Char) (k : Chars) :
    stripSuffixChar c (k ++ [c]) = some k := by
  unfold stripSuffixChar
  rw [List.reverse_append]
  simp

theorem clean_fix {l : Chars} (hlast : l.getLast? ≠ some '\r')
    (htrim : trimStart l = l) : clean_up_line l = l := by
  unfold clean_up_line
  rw [stripSuffixChar_eq_none hlast]
  exact htrim

theorem mem_of_cleanup {c : Char} {l : Chars} (h : c ∈ clean_up_line l) : c ∈ l := by
  unfold clean_up_line at h
  cases hs : stripSuffixChar '\r' l with
  | none => rw [hs] at h; exact mem_trimStart h
  | some t =>
    rw [hs] at h
    have := mem_trimStart h
    rw [stripSuffixChar_eq_some hs]
    exact List.mem_append_left _ this

theorem clean_trimStart_fix (l : Chars) :
    trimStart (clean_up_line l) = clean_up_line l := by
  unfold clean_up_line
  exact trimStart_idem _

/-! ## `splitOnce` lemmas -/

theorem splitOnce_append {k : Chars} (hk : '=' ∉ k) (v : Chars) :
    splitOnce '=' (k ++ '=' :: v) = some (k, v) := by
  induction k with
  | nil => simp [splitOnce]
  | cons a t ih =>
    have ha : ¬(a = '=') := fun h => hk (by simp [h])
    have ht : '=' ∉ t := fun h => hk (by simp [h])
    show splitOnce '=' (a :: (t ++ '=' :: v)) = some (a :: t, v)
    rw [splitOnce, if_neg ha, ih ht]

theorem splitOnce_none {l : Chars} (h : '=' ∉ l) : splitOnce '=' l = none := by
  induction l with
  | nil => rfl
  | cons a t ih =>
    have ha : ¬(a = '=') := fun hh => h (by simp [hh])
    have ht : '=' ∉ t := fun hh => h (by simp [hh])
    simp only [splitOnce, if_neg ha, ih ht]

theorem splitOnce_eq_some : ∀ {l a b : Chars},
    splitOnce '=' l = some (a, b) → l = a ++ '=' :: b ∧ '=' ∉ a := by
  intro l
  induction l with
  | nil => intro a b h; cases h
  | cons c t ih =>
    intro a b h
    simp only [splitOnce] at h
    split at h
    · rename_i hc
      cases h
      subst hc
      simp
    · rename_i hc
      split at h
      · cases h
      · rename_i a' b' hp
        cases h
        obtain ⟨h1, h2⟩ := ih hp
        refine ⟨by simp [h1], ?_⟩
        intro hm
        rcases List.mem_cons.mp hm with h | h
        · exact hc h.symm
        · exact h2 h

/-! ## `splitOnNl` and `joinNl` lemmas -/

theorem splitOnNl_append_cons {a : Chars} (ha : '\n' ∉ a) (b : Chars) :
    splitOnNl (a ++ '\n' :: b) = a :: splitOnNl b := by
  induction a with
  | nil => simp [splitOnNl]
  | cons c t ih =>
    have hc : ¬(c = '\n') := fun h => ha (by simp [h])
    have ht : '\n' ∉ t := fun h => ha (by simp [h])
    show splitOnNl (c :: (t ++ '\n' :: b)) = (c :: t) :: splitOnNl b
    rw [splitOnNl, if_neg hc, ih ht]

theorem splitOnNl_no_nl : ∀ (s : Chars), ∀ l ∈ splitOnNl s, '\n' ∉ l := by
  intro s
  induction s with
  | nil =>
    intro l hl
    simp [splitOnNl] at hl
    simp [hl]
  | cons c cs ih =>
    intro l hl
    by_cases hc : c = '\n'
    · rw [splitOnNl, if_pos hc] at hl
      rcases List.mem_cons.mp hl with h | h
      · simp [h]
      · exact ih l h
    · rw [splitOnNl, if_neg hc] at hl
      cases hsp : splitOnNl cs with
      | nil =>
        rw [hsp] at hl
        simp at hl
        simp [hl]
        exact fun h => hc h.symm
      | cons l0 ls =>
        rw [hsp] at hl
        rcases List.mem_cons.mp hl with h | h
        · subst h
          intro hm
          rcases List.mem_cons.mp hm with h | h
          · exact hc h.symm
          · exact ih l0 (by rw [hsp]; simp) h
        · exact ih l (by rw [hsp]; exact List.mem_cons_of_mem _ h)

theorem splitOnNl_joinNl_append : ∀ {l : Lines}, l ≠ [] →
    (∀ it ∈ l, '\n' ∉ it) → ∀ (b : Chars),
    splitOnNl (joinNl l ++ '\n' :: b) = l ++ splitOnNl b := by
  intro l
  induction l with
  | nil => intro h; cases h rfl
  | cons x xs ih =>
    intro _ hl b
    cases xs with
    | nil => simp [joinNl, splitOnNl_append_cons (hl x (by simp)) b]
    | cons y ys =>
      have hx : '\n' ∉ x := hl x (by simp)
      have hys : ∀ it ∈ y :: ys, '\n' ∉ it := fun it hit => hl it (by simp [hit])
      show splitOnNl (joinNl (x :: y :: ys) ++ '\n' :: b) = _
      rw [joinNl]
      rw [List.cons_append, List.append_assoc]
      rw [show ('\n' :: joinNl (y :: ys)) ++ '\n' :: b
            = '\n' :: (joinNl (y :: ys) ++ '\n' :: b) from rfl]
      rw [splitOnNl_append_cons hx, ih (List.cons_ne_nil y ys) hys b]
      exact List.cons_ne_nil y ys

/-! ## Well-shaped documents: the shape the parser itself produces -/

/-- Keys as the parser produces them: no newline, no `=`, no trailing `{`,
no leading whitespace, not starting with `#`. -/
def keyOk (k : Chars) : Prop :=
  '\n' ∉ k ∧ '=' ∉ k ∧ k.getLast? ≠ some '{' ∧ trimStart k = k
  ∧ k.head? ≠ some '#'

/-- List items as the parser produces them: no newline, not the closer
line, no leading whitespace. -/
def itemOk (it : Chars) : Prop :=
  '\n' ∉ it ∧ it ≠ ['}'] ∧ trimStart it = it

/-- Values as the parser produces them. -/
def valOk : SlopValue → Prop
  | .String s => '\n' ∉ s
  | .List l => ∀ it ∈ l, itemOk it

/-- The extra conditions under which the compact round trip is exact: no
string value or list item ends in `\r` (a reparse would strip it) and no
list value is empty (an empty list renders like the one-empty-item list). -/
def crEmptyOk : SlopValue → Prop
  | .String s => s.getLast? ≠ some '\r'
  | .List l => l ≠ [] ∧ ∀ it ∈ l, it.getLast? ≠ some '\r'

instance : Inhabited SlopValue := ⟨SlopValue.String []⟩

instance (k : Chars) : Decidable (keyOk k) :=
  inferInstanceAs (Decidable ('\n' ∉ k ∧ '=' ∉ k ∧ k.getLast? ≠ some '{'
    ∧ trimStart k = k ∧ k.head? ≠ some '#'))

instance (it : Chars) : Decidable (itemOk it) :=
  inferInstanceAs (Decidable ('\n' ∉ it ∧ it ≠ ['}'] ∧ trimStart it = it))

instance : (v : SlopValue) → Decidable (valOk v)
  | .String s => inferInstanceAs (Decidable ('\n' ∉ s))
  | .List l => inferInstanceAs (Decidable (∀ it ∈ l, itemOk it))

instance : (v : SlopValue) → Decidable (crEmptyOk v)
  | .String s => inferInstanceAs (Decidable (s.getLast? ≠ some '\r'))
  | .List l =>
    inferInstanceAs (Decidable (l ≠ [] ∧ ∀ it ∈ l, it.getLast? ≠ some '\r'))

/-- A document shaped like parser output: distinct keys, and every entry
key/value of the shape the parsing loop inserts. -/
def Slop.WF (d : Slop) : Prop :=
  (d.items.map Prod.fst).Nodup ∧ ∀ e ∈ d.items, keyOk e.1 ∧ valOk e.2

/-! ## The rendered text, entry by entry -/

/-- The text `Display for Slop` contributes for one entry. -/
def entryText (e : Chars × SlopValue) : Chars :=
  e.1 ++ e.2.render ++ ['\n']

/-- The rendered text of a list of entries. -/
def renderTexts : List (Chars × SlopValue) → Chars
  | [] => []
  | e :: rest => entryText e ++ renderTexts rest

theorem render_eq_renderTexts (d : Slop) : d.render = renderTexts d.items := by
  unfold Slop.render
  suffices h : ∀ (items : List (Chars × SlopValue)) (acc : Chars),
      items.foldl (fun acc e => acc ++ e.1 ++ e.2.render ++ ['\n']) acc
        = acc ++ renderTexts items by
    simpa using h d.items []
  intro items
  induction items with
  | nil => intro acc; simp [renderTexts]
  | cons e rest ih =>
    intro acc
    rw [List.foldl_cons, ih, renderTexts, entryText]
    simp [List.append_assoc]

/-! ## Helpers about heads and last elements of rendered lines -/

theorem head_append_cons_ne {k s : Chars} {c x : Char} (hk : k.head? ≠ some x)
    (hc : c ≠ x) : (k ++ c :: s).head? ≠ some x := by
  cases k with
  | nil => simpa using hc
  | cons a t => simpa using hk

theorem head_fix_of_append {a b : Chars} {x : Char}
    (h : (a ++ b).head? ≠ some x) : a.head? ≠ some x := by
  cases a with
  | nil => simp
  | cons c t => simpa using h

theorem getLast_append_cons_ne {k s : Chars} {c x : Char}
    (hs : s.getLast? ≠ some x) (hc : c ≠ x) :
    (k ++ c :: s).getLast? ≠ some x := by
  rw [List.getLast?_append_cons]
  cases s with
  | nil => simpa using hc
  | cons a t =>
    rw [List.getLast?_cons_cons]
    exact hs

theorem getLast_concat_ne {k : Chars} {c x : Char} (hc : c ≠ x) :
    (k ++ [c]).getLast? ≠ some x := by
  rw [List.getLast?_concat]
  simpa using hc

/-! ## `insertItems` on fresh keys, and key sets -/

theorem insertItems_not_mem (items : List (Chars × SlopValue)) (key : Chars)
    (v : SlopValue) (h : ∀ p ∈ items, p.1 ≠ key) :
    insertItems items key v = items ++ [(key, v)] := by
  induction items with
  | nil => rfl
  | cons p rest ih =>
    rw [insertItems, if_neg (h p (by simp)), ih (fun q hq => h q (by simp [hq]))]
    rfl

theorem mem_keys_insertItems {x : Chars} :
    ∀ (items : List (Chars × SlopValue)) (key : Chars) (v : SlopValue),
    x ∈ (insertItems items key v).map Prod.fst →
    x ∈ items.map Prod.fst ∨ x = key := by
  intro items
  induction items with
  | nil =>
    intro key v h
    simp [insertItems] at h
    exact Or.inr h
  | cons p rest ih =>
    intro key v h
    rw [insertItems] at h
    split at h
    · rename_i hp
      simp at h
      rcases h with h | h
      · exact Or.inl (by simp [h])
      · exact Or.inl (by simp [h])
    · simp at h
      rcases h with h | h
      · exact Or.inl (by simp [h])
      · rcases ih key v (by simpa using h) with h' | h'
        · exact Or.inl (by simp; exact Or.inr (by simpa using h'))
        · exact Or.inr h'

theorem mem_insertItems {e : Chars × SlopValue} :
    ∀ (items : List (Chars × SlopValue)) (key : Chars) (v : SlopValue),
    e ∈ insertItems items key v → e ∈ items ∨ e = (key, v) := by
  intro items
  induction items with
  | nil =>
    intro key v h
    simp [insertItems] at h
    exact Or.inr h
  | cons p rest ih =>
    intro key v h
    rw [insertItems] at h
    split at h
    · rename_i hp
      rcases List.mem_cons.mp h with h | h
      · exact Or.inr (by rw [h, hp])
      · exact Or.inl (List.mem_cons_of_mem p h)
    · rcases List.mem_cons.mp h with h | h
      · exact Or.inl (by simp [h])
      · rcases ih key v h with h' | h'
        · exact Or.inl (List.mem_cons_of_mem p h')
        · exact Or.inr h'

theorem insertItems_nodup : ∀ (items : List (Chars × SlopValue)) (key : Chars)
    (v : SlopValue), (items.map Prod.fst).Nodup →
    ((insertItems items key v).map Prod.fst).Nodup := by
  intro items
  induction items with
  | nil => intro key v _; simp [insertItems]
  | cons p rest ih =>
    intro key v hnd
    rw [List.map_cons, List.nodup_cons] at hnd
    rw [insertItems]
    split
    · rename_i hp
      simpa using hnd
    · rename_i hp
      rw [List.map_cons, List.nodup_cons]
      refine ⟨?_, ih key v hnd.2⟩
      intro hmem
      rcases mem_keys_insertItems rest key v hmem with h | h
      · exact hnd.1 h
      · exact hp h

/-! ## Exact computation lemmas for reparsing rendered text -/

theorem scanListBody_exact : ∀ {l : Lines},
    (∀ it ∈ l, clean_up_line it = it ∧ it ≠ ['}']) → ∀ (tail : Lines),
    scanListBody (l ++ ['}'] :: tail) = some (l, l.length + 1) := by
  intro l
  induction l with
  | nil =>
    intro _ tail
    show scanListBody (['}'] :: tail) = some ([], 1)
    simp only [scanListBody]
    rw [if_pos (by decide : clean_up_line ['}'] = ['}'])]
  | cons x xs ih =>
    intro hitems tail
    obtain ⟨hcx, hnex⟩ := hitems x (by simp)
    have hxs : ∀ it ∈ xs, clean_up_line it = it ∧ it ≠ ['}'] :=
      fun it hit => hitems it (by simp [hit])
    show scanListBody (x :: (xs ++ ['}'] :: tail)) = _
    simp only [scanListBody, hcx]
    rw [if_neg hnex, ih hxs tail]
    simp [Nat.add_comm]

theorem appendLoop_skip_exact : ∀ (body : Lines) (acc : Slop) (lines : Lines)
    (i : Nat) (tail : Lines),
    appendLoop acc lines i body.length (body ++ tail)
      = appendLoop acc lines (i + body.length) 0 tail := by
  intro body
  induction body with
  | nil => intro acc lines i tail; simp
  | cons x b ih =>
    intro acc lines i tail
    show appendLoop acc lines i (b.length + 1) (x :: (b ++ tail)) = _
    rw [appendLoop, if_pos (by omega : 0 < b.length + 1)]
    have : b.length + 1 - 1 = b.length := by omega
    rw [this, ih acc lines (i + 1) tail]
    have : i + 1 + b.length = i + (b.length + 1) := by omega
    rw [this, List.length_cons]

theorem parse_list_kv_of_shape {lines : Lines} {i : Nat} {k : Chars} {l : Lines}
    {tail : Lines}
    (hget : lines[i]? = some (k ++ ['{']))
    (hcln : clean_up_line (k ++ ['{']) = k ++ ['{'])
    (hdrop : lines.drop (i + 1) = l ++ ['}'] :: tail)
    (hitems : ∀ it ∈ l, clean_up_line it = it ∧ it ≠ ['}']) :
    parse_list_kv lines i
      = some (.ok (some (k, SlopValue.List l, l.length + 1))) := by
  simp only [parse_list_kv, hget, hcln, stripSuffixChar_append, hdrop,
    scanListBody_exact hitems tail]

theorem appendLoop_step_string {acc : Slop} {lines : Lines} {i : Nat}
    {l : Chars} {rest : Lines} {k s : Chars}
    (hcln : clean_up_line l = l)
    (hne : ¬(l = [] ∨ l.head? = some '#'))
    (hparse : parse_string_kv l = some (k, SlopValue.String s))
    (hguard : ¬('=' ∈ k ∨ k.getLast? = some '{')) :
    appendLoop acc lines i 0 (l :: rest)
      = appendLoop ⟨insertItems acc.items k (SlopValue.String s)⟩
          lines (i + 1) 0 rest := by
  simp only [appendLoop, Nat.lt_irrefl, if_false, hcln, if_neg hne, hparse,
    Slop.insert, if_neg hguard]

theorem appendLoop_step_list {acc : Slop} {lines : Lines} {i : Nat}
    {l : Chars} {rest : Lines} {k : Chars} {vals : Lines} {n : Nat}
    (hcln : clean_up_line l = l)
    (hne : ¬(l = [] ∨ l.head? = some '#'))
    (hparse : parse_string_kv l = none)
    (hplk : parse_list_kv lines i = some (.ok (some (k, SlopValue.List vals, n))))
    (hguard : ¬('=' ∈ k ∨ k.getLast? = some '{')) :
    appendLoop acc lines i 0 (l :: rest)
      = appendLoop ⟨insertItems acc.items k (SlopValue.List vals)⟩
          lines (i + 1) n rest := by
  simp only [appendLoop, Nat.lt_irrefl, if_false, hcln, if_neg hne, hparse,
    hplk, Slop.insert, if_neg hguard]

/-- Reparsing rendered well-shaped entries inserts exactly those entries
back, in order. -/
theorem appendLoop_reparse : ∀ (entries : List (Chars × SlopValue)) (acc : Slop)
    (lines : Lines) (i : Nat),
    (∀ e ∈ entries, keyOk e.1 ∧ valOk e.2 ∧ crEmptyOk e.2) →
    lines.drop i = splitOnNl (renderTexts entries) →
    appendLoop acc lines i 0 (splitOnNl (renderTexts entries))
      = some (⟨entries.foldl (fun its e => insertItems its e.1 e.2) acc.items⟩,
          .ok ()) := by
  intro entries
  induction entries with
  | nil =>
    intro acc lines i _ _
    rfl
  | cons e rest ih =>
    intro acc lines i hall hdrop
    have he := hall e (by simp)
    have hrest : ∀ x ∈ rest, keyOk x.1 ∧ valOk x.2 ∧ crEmptyOk x.2 :=
      fun x hx => hall x (by simp [hx])
    obtain ⟨k, v⟩ := e
    obtain ⟨hkOk, hval, hcr⟩ := he
    simp only [keyOk] at hkOk
    obtain ⟨hknl, hkeq, hklast, hktrim, hkhead⟩ := hkOk
    have hguard : ¬('=' ∈ k ∨ k.getLast? = some '{') := by
      push_neg
      exact ⟨hkeq, hklast⟩
    cases v with
    | String s =>
      simp only [valOk] at hval
      simp only [crEmptyOk] at hcr
      have hnl : '\n' ∉ k ++ '=' :: s := by
        intro hm
        rcases List.mem_append.mp hm with h | h
        · exact hknl h
        · rcases List.mem_cons.mp h with h | h
          · exact absurd h (by decide)
          · exact hval h
      have htext : renderTexts ((k, SlopValue.String s) :: rest)
          = (k ++ '=' :: s) ++ '\n' :: renderTexts rest := by
        show entryText (k, SlopValue.String s) ++ renderTexts rest = _
        rw [entryText]
        show (k ++ ('=' :: s) ++ ['\n']) ++ renderTexts rest = _
        simp [List.append_assoc]
      have hsplit : splitOnNl (renderTexts ((k, SlopValue.String s) :: rest))
          = (k ++ '=' :: s) :: splitOnNl (renderTexts rest) := by
        rw [htext, splitOnNl_append_cons hnl]
      rw [hsplit] at hdrop ⊢
      have hcln : clean_up_line (k ++ '=' :: s) = k ++ '=' :: s :=
        clean_fix (getLast_append_cons_ne hcr (by decide))
          (trimStart_fix_append hktrim (by decide))
      have hne : ¬(k ++ '=' :: s = [] ∨ (k ++ '=' :: s).head? = some '#') := by
        push_neg
        exact ⟨by simp, head_append_cons_ne hkhead (by decide)⟩
      have hparse : parse_string_kv (k ++ '=' :: s)
          = some (k, SlopValue.String s) := by
        unfold parse_string_kv
        rw [splitOnce_append hkeq s]
      rw [appendLoop_step_string hcln hne hparse hguard]
      rw [ih ⟨insertItems acc.items k (SlopValue.String s)⟩ lines (i + 1) hrest
        (drop_succ_of_drop hdrop)]
      rfl
    | List l =>
      simp only [valOk] at hval
      simp only [crEmptyOk] at hcr
      obtain ⟨hlne, hlcr⟩ := hcr
      have hitemsnl : ∀ it ∈ l, '\n' ∉ it := fun it hit => (hval it hit).1
      have hknl' : '\n' ∉ k ++ ['{'] := by
        intro hm
        rcases List.mem_append.mp hm with h | h
        · exact hknl h
        · simp at h
      have htext : renderTexts ((k, SlopValue.List l) :: rest)
          = (k ++ ['{'])
            ++ '\n' :: (joinNl l ++ '\n' :: ('}' :: '\n' :: renderTexts rest)) := by
        show entryText (k, SlopValue.List l) ++ renderTexts rest = _
        rw [entryText]
        show (k ++ ('{' :: '\n' :: (joinNl l ++ '\n' :: ['}'])) ++ ['\n'])
            ++ renderTexts rest = _
        simp [List.append_assoc]
      have hsplit : splitOnNl (renderTexts ((k, SlopValue.List l) :: rest))
          = (k ++ ['{']) :: (l ++ ['}'] :: splitOnNl (renderTexts rest)) := by
        rw [htext, splitOnNl_append_cons hknl', splitOnNl_joinNl_append hlne hitemsnl]
        rfl
      rw [hsplit] at hdrop ⊢
      have hclnOp : clean_up_line (k ++ ['{']) = k ++ ['{'] :=
        clean_fix (getLast_concat_ne (by decide))
          (trimStart_fix_append hktrim (by decide))
      have hne : ¬(k ++ ['{'] = [] ∨ (k ++ ['{']).head? = some '#') := by
        push_neg
        exact ⟨by simp, head_append_cons_ne hkhead (by decide)⟩
      have hparse : parse_string_kv (k ++ ['{']) = none := by
        unfold parse_string_kv
        rw [splitOnce_none ?hh]
        case hh =>
          intro hm
          rcases List.mem_append.mp hm with h | h
          · exact hkeq h
          · simp at h
      have hitems : ∀ it ∈ l, clean_up_line it = it ∧ it ≠ ['}'] := by
        intro it hit
        exact ⟨clean_fix (hlcr it hit) (hval it hit).2.2, (hval it hit).2.1⟩
      have hplk := parse_list_kv_of_shape (drop_cons_get hdrop) hclnOp
        (drop_succ_of_drop hdrop) hitems
      rw [appendLoop_step_list hclnOp hne hparse hplk hguard]
      have hshape : l ++ ['}'] :: splitOnNl (renderTexts rest)
          = (l ++ [['}']]) ++ splitOnNl (renderTexts rest) := by simp
      rw [hshape]
      have hlen : l.length + 1 = (l ++ [['}']]).length := by simp
      rw [hlen, appendLoop_skip_exact]
      have hdrop2 : lines.drop (i + 1 + (l ++ [['}']]).length)
          = splitOnNl (renderTexts rest) := by
        apply drop_append_shift
        rw [drop_succ_of_drop hdrop]
        simp
      rw [ih _ lines _ hrest hdrop2]
      rfl

theorem foldl_insertItems_eq_append : ∀ (entries pre : List (Chars × SlopValue)),
    ((pre ++ entries).map Prod.fst).Nodup →
    entries.foldl (fun its e => insertItems its e.1 e.2) pre = pre ++ entries := by
  intro entries
  induction entries with
  | nil => intro pre _; simp
  | cons e rest ih =>
    intro pre hnd
    have hkey : ∀ p ∈ pre, p.1 ≠ e.1 := by
      rw [List.map_append, List.nodup_append] at hnd
      intro p hp heq
      exact hnd.2.2 (List.mem_map_of_mem _ hp) (by simp [heq])
    rw [List.foldl_cons, insertItems_not_mem pre e.1 e.2 hkey]
    have hnd' : (((pre ++ [e]) ++ rest).map Prod.fst).Nodup := by
      simpa [List.append_assoc] using hnd
    rw [ih (pre ++ [e]) hnd']
    simp

/-- Reparsing the compact rendering of a well-shaped document returns
exactly that document. -/
theorem reparse_exact {d : Slop}
    (hnd : (d.items.map Prod.fst).Nodup)
    (hall : ∀ e ∈ d.items, keyOk e.1 ∧ valOk e.2 ∧ crEmptyOk e.2) :
    slopFromStr (Slop.render d) = some (.ok d) := by
  have happ : Slop.new.append_slop_string (Slop.render d) = some (d, .ok ()) := by
    unfold Slop.append_slop_string
    rw [render_eq_renderTexts]
    rw [appendLoop_reparse d.items Slop.new (splitOnNl (renderTexts d.items)) 0
      hall (by simp)]
    have hfold : List.foldl (fun its e => insertItems its e.1 e.2)
        Slop.new.items d.items = d.items := by
      have h := foldl_insertItems_eq_append d.items [] (by simpa using hnd)
      simpa using h
    rw [hfold]
  unfold slopFromStr
  rw [happ]

/-! ## The parser only produces well-shaped documents -/

theorem mem_of_get {α : Type} : ∀ {l : List α} {i : Nat} {x : α},
    l[i]? = some x → x ∈ l := by
  intro l
  induction l with
  | nil => intro i x h; cases h
  | cons a t ih =>
    intro i x h
    cases i with
    | zero => simp at h; simp [h]
    | succ n =>
      simp only [List.getElem?_cons_succ] at h
      exact List.mem_cons_of_mem a (ih h)

theorem WF_insert {acc : Slop} {key : Chars} {v : SlopValue}
    (hwf : Slop.WF acc) (hk : keyOk key) (hv : valOk v) :
    Slop.WF ⟨insertItems acc.items key v⟩ := by
  constructor
  · exact insertItems_nodup _ _ _ hwf.1
  · intro e he
    rcases mem_insertItems _ _ _ he with h | h
    · exact hwf.2 e h
    · rw [h]
      exact ⟨hk, hv⟩

theorem insert_ok_guard {d : Slop} {key : Chars} {v : SlopValue} {d' : Slop}
    {prev : Option SlopValue} (h : d.insert key v = (d', .ok prev)) :
    ¬('=' ∈ key ∨ key.getLast? = some '{') := by
  intro hg
  unfold Slop.insert at h
  rw [if_pos hg] at h
  exact absurd (congrArg Prod.snd h) (by simp)

theorem string_entry_ok {l key : Chars} {value : SlopValue}
    (hnl : '\n' ∉ l)
    (hne : ¬(clean_up_line l = [] ∨ (clean_up_line l).head? = some '#'))
    (hparse : parse_string_kv (clean_up_line l) = some (key, value))
    (hguard : ¬('=' ∈ key ∨ key.getLast? = some '{')) :
    keyOk key ∧ valOk value := by
  push_neg at hne hguard
  have hcnl : '\n' ∉ clean_up_line l := fun hm => hnl (mem_of_cleanup hm)
  unfold parse_string_kv at hparse
  cases hsp : splitOnce '=' (clean_up_line l) with
  | none => rw [hsp] at hparse; cases hparse
  | some p =>
    obtain ⟨a, b⟩ := p
    rw [hsp] at hparse
    cases hparse
    obtain ⟨hdec, _⟩ := splitOnce_eq_some hsp
    have htrim : trimStart (clean_up_line l) = clean_up_line l :=
      clean_trimStart_fix l
    constructor
    · refine ⟨?_, hguard.1, hguard.2, ?_, ?_⟩
      · intro hm
        exact hcnl (by rw [hdec]; exact List.mem_append_left _ hm)
      · exact trimStart_fix_of_append (by rw [← hdec]; exact htrim)
      · exact head_fix_of_append (by rw [← hdec]; exact hne.2)
    · show '\n' ∉ b
      intro hm
      exact hcnl (by rw [hdec]; exact List.mem_append_right _ (by simp [hm]))

theorem list_entry_ok {lines : Lines} {i : Nat} {l key : Chars}
    {value : SlopValue} {skipN : Nat}
    (hlines : ∀ x ∈ lines, '\n' ∉ x)
    (hget : lines[i]? = some l)
    (hne : ¬(clean_up_line l = [] ∨ (clean_up_line l).head? = some '#'))
    (hplk : parse_list_kv lines i = some (.ok (some (key, value, skipN))))
    (hguard : ¬('=' ∈ key ∨ key.getLast? = some '{')) :
    keyOk key ∧ valOk value := by
  push_neg at hne hguard
  have hnl : '\n' ∉ l := hlines l (mem_of_get hget)
  have hcnl : '\n' ∉ clean_up_line l := fun hm => hnl (mem_of_cleanup hm)
  have htrim : trimStart (clean_up_line l) = clean_up_line l :=
    clean_trimStart_fix l
  simp only [parse_list_kv, hget] at hplk
  cases hss : stripSuffixChar '{' (clean_up_line l) with
  | none => rw [hss] at hplk; simp at hplk
  | some key0 =>
    rw [hss] at hplk
    have hdec : clean_up_line l = key0 ++ ['{'] := stripSuffixChar_eq_some hss
    cases hscan : scanListBody (lines.drop (i + 1)) with
    | none => rw [hscan] at hplk; simp at hplk
    | some p =>
      obtain ⟨vals, n⟩ := p
      rw [hscan] at hplk
      simp only [Option.some.injEq, Except.ok.injEq, Prod.mk.injEq] at hplk
      obtain ⟨hk0, hv0, hn0⟩ := hplk
      subst hk0
      subst hv0
      obtain ⟨_, hshape, hnotbrace⟩ := scanListBody_shape _ _ _ hscan
      constructor
      · refine ⟨?_, hguard.1, hguard.2, ?_, ?_⟩
        · intro hm
          exact hcnl (by rw [hdec]; exact List.mem_append_left _ hm)
        · exact trimStart_fix_of_append (by rw [← hdec]; exact htrim)
        · exact head_fix_of_append (by rw [← hdec]; exact hne.2)
      · show ∀ it ∈ vals, itemOk it
        intro it hit
        have hmap := hshape ▸ hit
        obtain ⟨bl, hbl, hbl2⟩ := List.mem_map.mp hmap
        have hblmem : bl ∈ lines :=
          List.drop_subset _ _ (List.take_subset _ _ hbl)
        refine ⟨?_, hnotbrace it hit, ?_⟩
        · intro hm
          rw [← hbl2] at hm
          exact hlines bl hblmem (mem_of_cleanup hm)
        · rw [← hbl2]
          exact clean_trimStart_fix bl

theorem appendLoop_WF : ∀ (rest : Lines) (acc : Slop) (lines : Lines)
    (i skip : Nat) (d : Slop) (res : Except SlopError Unit),
    (∀ x ∈ lines, '\n' ∉ x) →
    lines.drop i = rest →
    Slop.WF acc →
    appendLoop acc lines i skip rest = some (d, res) →
    Slop.WF d := by
  intro rest
  induction rest with
  | nil =>
    intro acc lines i skip d res _ _ hacc h
    simp only [appendLoop, Option.some.injEq] at h
    cases h
    exact hacc
  | cons l r ih =>
    intro acc lines i skip d res hlines hdrop hacc h
    have hd : lines.drop (i + 1) = r := drop_succ_of_drop hdrop
    have hg : lines[i]? = some l := drop_cons_get hdrop
    simp only [appendLoop] at h
    split at h
    · exact ih _ _ _ _ _ _ hlines hd hacc h
    · split at h
      · exact ih _ _ _ _ _ _ hlines hd hacc h
      · rename_i hne
        split at h
        · rename_i key value hparse
          split at h
          · rename_i s' prev hins
            have hguard := insert_ok_guard hins
            obtain ⟨hk, hv⟩ := string_entry_ok (hlines l (mem_of_get hg)) hne
              hparse hguard
            refine ih _ _ _ _ _ _ hlines hd ?_ h
            have hitems := insert_ok_items hins
            have : s' = ⟨insertItems acc.items key value⟩ := by
              cases s'
              simpa using hitems
            rw [this]
            exact WF_insert hacc hk hv
          · rename_i s' e hins
            cases h
            rw [insert_error_state hins]
            exact hacc
        · split at h
          · cases h
          · cases h
            exact hacc
          · cases h
            exact hacc
          · rename_i key value skipN hplk
            split at h
            · rename_i s' prev hins
              have hguard := insert_ok_guard hins
              obtain ⟨hk, hv⟩ := list_entry_ok hlines hg hne hplk hguard
              refine ih _ _ _ _ _ _ hlines hd ?_ h
              have hitems := insert_ok_items hins
              have : s' = ⟨insertItems acc.items key value⟩ := by
                cases s'
                simpa using hitems
              rw [this]
              exact WF_insert hacc hk hv
            · rename_i s' e hins
              cases h
              rw [insert_error_state hins]
              exact hacc

theorem slopFromStr_WF {input : Chars} {d : Slop}
    (h : slopFromStr input = some (.ok d)) : Slop.WF d := by
  unfold slopFromStr at h
  cases happ : Slop.new.append_slop_string input with
  | none => rw [happ] at h; cases h
  | some p =>
    obtain ⟨d', res⟩ := p
    rw [happ] at h
    cases res with
    | ok u =>
      replace h : some (Except.ok d' : Except SlopError Slop) = some (.ok d) := h
      cases h
      unfold Slop.append_slop_string at happ
      exact appendLoop_WF _ _ _ _ _ _ _ (splitOnNl_no_nl input) (by simp)
        (by refine ⟨?_, ?_⟩ <;> simp [Slop.new]) happ
    | error e =>
      replace h : (some (Except.error e) : Option (Except SlopError Slop))
          = some (.ok d) := h
      cases h

/-! ## Claim C2 -/

/-- C2 counterexample: the parse-produced document `{k: List []}` (from
`"k{\n}"`) renders to `"k{\n\n}\n"`, which reparses to `{k: List [""]}` —
a different mapping, so the round trip fails on a document holding an
empty list. -/
theorem round_trip_counterexample :
    slopFromStr (str ("k\x7b\n\x7d")) = some (.ok ⟨[(str ("k"), .List [])]⟩)
    ∧ Slop.render ⟨[(str ("k"), .List [])]⟩ = str ("k\x7b\n\n\x7d\n")
    ∧ slopFromStr (str ("k\x7b\n\n\x7d\n"))
        = some (.ok ⟨[(str ("k"), .List [str ("")])]⟩)
    ∧ (Slop.mk [(str ("k"), .List [str ("")])]).get (str ("k"))
        ≠ (Slop.mk [(str ("k"), .List [])]).get (str ("k")) := by decide

/-- C2 amended: for every document produced by a successful parse in which
no list value is empty and no string value or list item ends in `\r`,
parsing the compact rendering succeeds and returns exactly the same
document (hence the same key-to-value mapping). -/
theorem round_trip_amended :
    ∀ (input : Chars) (d : Slop),
    slopFromStr input = some (.ok d) →
    (∀ e ∈ d.items, crEmptyOk e.2) →
    slopFromStr (Slop.render d) = some (.ok d) := by
  intro input d hp hc
  have hwf := slopFromStr_WF hp
  exact reparse_exact hwf.1 (fun e he => ⟨(hwf.2 e he).1, (hwf.2 e he).2, hc e he⟩)

/-- C2 amended witness: a parse-produced document with a string entry and a
non-empty list entry round-trips exactly. -/
theorem round_trip_amended_witness :
    slopFromStr (Slop.render ⟨[(str ("a"), .String (str ("1"))),
        (str ("l"), .List [str ("x")])]⟩)
      = some (.ok ⟨[(str ("a"), .String (str ("1"))),
          (str ("l"), .List [str ("x")])]⟩) :=
  round_trip_amended (str ("a=1\nl\x7b\nx\n\x7d"))
    ⟨[(str ("a"), .String (str ("1"))), (str ("l"), .List [str ("x")])]⟩
    (by decide) (by decide)

/-! ## Claim C4 -/

/-- C4 counterexample: the document `{a{: String "v"}` satisfies the
claim's hypotheses (no leading/trailing whitespace, no `\r`, no `#` at line
start), but its compact rendering `"a{=v\n"` fails to reparse — the split
gives key `a{`, which the checked insert rejects — so no second rendering
exists and the idempotence equation cannot hold. -/
theorem idempotence_counterexample :
    Slop.render ⟨[(str ("a\x7b"), .String (str ("v")))]⟩ = str ("a\x7b=v\n")
    ∧ slopFromStr (str ("a\x7b=v\n"))
        = some (.error (.InvalidKey (str ("a\x7b")))) := by decide

/-- C4 amended: for every document with distinct keys whose entries are
well shaped — keys contain no `=` and no newline, do not end in `{`, have
no leading whitespace and do not start with `#`; string values and list
items contain no newline and do not end in `\r`; no list item is exactly
`}`; no list value is empty — parsing the compact rendering returns exactly
the same document, so a second compact rendering is textually equal to the
first. -/
theorem idempotence_amended :
    ∀ (d : Slop),
    (d.items.map Prod.fst).Nodup →
    (∀ e ∈ d.items, keyOk e.1 ∧ valOk e.2 ∧ crEmptyOk e.2) →
    slopFromStr (Slop.render d) = some (.ok d)
    ∧ ∀ d', slopFromStr (Slop.render d) = some (.ok d') →
        Slop.render d' = Slop.render d := by
  intro d hnd hall
  have h := reparse_exact hnd hall
  refine ⟨h, fun d' h' => ?_⟩
  rw [h] at h'
  have h2 := Option.some.inj h'
  injection h2 with h3
  rw [← h3]

/-- C4 amended witness: a concrete well-shaped two-entry document. -/
theorem idempotence_amended_witness :
    slopFromStr (Slop.render ⟨[(str ("k"), .String (str ("v"))),
        (str ("l"), .List [str ("x"), str ("y")])]⟩)
      = some (.ok ⟨[(str ("k"), .String (str ("v"))),
          (str ("l"), .List [str ("x"), str ("y")])]⟩) :=
  (idempotence_amended ⟨[(str ("k"), .String (str ("v"))),
      (str ("l"), .List [str ("x"), str ("y")])]⟩
    (by decide) (by decide)).1
